import Mathlib

/-!
Verification of the censor-ai backend core (Go, `main.go`): the segment
merger (`processVideo`), the rating scale (`getRatingValue`), the frame
decision logic of `blurInappropriateContent` / `trimInappropriateContent`,
and the request validation of `convertVideo`.  Go `float64` timestamps are
modelled as `ℚ`, Go `int` as `ℤ`, the Go `map[string]bool` note set as a
duplicate-free `List String`.  The Go standard-library string helpers
(`strings.Split`, `strings.TrimSpace`, `strings.ToLower`, `sort.Strings`,
`strings.Join`) are embedded as explicit functions on the character lists
underlying `String`.
-/

namespace CensorAI

/-- Mirror of the Go struct `RatingResult`; the Go field `End` is named
`endTime` because `end` is reserved in Lean. -/
structure RatingResult where
  start : ℚ
  endTime : ℚ
  rating : String
  notes : String
deriving DecidableEq, Repr

/-- Go `getRatingValue`: switch on the rating label. -/
def getRatingValue (rating : String) : ℤ :=
  if rating = "6+" then 6
  else if rating = "12+" then 12
  else if rating = "16+" then 16
  else if rating = "18+" then 18
  else 0

/-- The `epsilon` constant of `trimInappropriateContent`. -/
def eps : ℚ := 1/1000

/-- The rating labels in the spec's fixed order
none(0) < 6+ < 12+ < 16+ < 18+, the unknown label represented by `""`. -/
def ratingLabels : List String := ["", "6+", "12+", "16+", "18+"]

/-- The whitespace characters stripped by Go `strings.TrimSpace` that can
occur in classifier notes. -/
def isSpaceChar (c : Char) : Bool :=
  c = ' ' || c = '\t' || c = '\n' || c = '\r'

/-- Splitting a character list at commas (Go `strings.Split(s, ",")`);
`acc` holds the reversed current piece. -/
def splitCommaAux : List Char → List Char → List (List Char)
  | [], acc => [acc.reverse]
  | c :: cs, acc =>
    if c = ',' then acc.reverse :: splitCommaAux cs []
    else splitCommaAux cs (c :: acc)

/-- Go `strings.Split(s, ",")`. -/
def goSplitComma (s : String) : List String :=
  (splitCommaAux s.data []).map String.mk

/-- Go `strings.TrimSpace` on a character list. -/
def trimChars (l : List Char) : List Char :=
  ((l.dropWhile isSpaceChar).reverse.dropWhile isSpaceChar).reverse

/-- Go `strings.TrimSpace`. -/
def goTrim (s : String) : String := String.mk (trimChars s.data)

/-- ASCII lower-casing of one character (Go `strings.ToLower` on the
keyword alphabet the classifier emits). -/
def lowerChar (c : Char) : Char :=
  if 'A' ≤ c ∧ c ≤ 'Z' then Char.ofNat (c.toNat + 32) else c

/-- Go `strings.ToLower`. -/
def goToLower (s : String) : String := String.mk (s.data.map lowerChar)

/-- Byte-wise lexicographic comparison of Go `sort.Strings`. -/
def lexLe : List Char → List Char → Bool
  | [], _ => true
  | _ :: _, [] => false
  | a :: as, b :: bs => if a = b then lexLe as bs else decide (a < b)

/-- The string order used by Go `sort.Strings`, as a relation on `String`. -/
def noteLe (a b : String) : Prop := lexLe a.data b.data = true

instance : DecidableRel noteLe :=
  fun a b => inferInstanceAs (Decidable (lexLe a.data b.data = true))

/-- Note parsing done inline in `processVideo`: split the raw notes on
commas, lower-case and trim each piece, drop empty pieces and `"none"`. -/
def parseNotes (notes : String) : List String :=
  ((goSplitComma notes).map (fun x => goTrim (goToLower x))).filter
    (fun x => decide (x ≠ "" ∧ x ≠ "none"))

/-- Insertion into the `combinedNotes` set (Go `map[string]bool`). -/
def insertNote (cn : List String) (n : String) : List String :=
  if n ∈ cn then cn else n :: cn

/-- Add all parsed tokens of a raw notes string to the note set. -/
def addNotes (cn : List String) (notes : String) : List String :=
  (parseNotes notes).foldl insertNote cn

/-- Go `sort.Strings(notesList)` followed by `strings.Join(notesList, ", ")`. -/
def notesString (cn : List String) : String :=
  String.intercalate ", " (List.insertionSort noteLe cn)

/-- One classification sample handed to the merging logic of `processVideo`:
the sampled frame's timestamp plus the classifier's rating and raw notes. -/
structure Sample where
  timestamp : ℚ
  rating : String
  notes : String
deriving DecidableEq, Repr

/-- The loop state of `processVideo`: `lastRating`, `startTime`,
`combinedNotes` and the accumulated `results`. -/
structure MergeState where
  lastRating : String
  startTime : ℚ
  combinedNotes : List String
  results : List RatingResult
deriving DecidableEq, Repr

/-- The zero-valued initial state of the `processVideo` loop. -/
def initState : MergeState := ⟨"", 0, [], []⟩

/-- The per-sample body of the `processVideo` loop (lines 161–194 of
`main.go`): same rating accumulates notes; a different rating closes the
open segment with `End = timestamp − 1` (emitted only when `lastRating`
is non-empty) and opens a new one at this sample's timestamp. -/
def mergeStep (st : MergeState) (s : Sample) : MergeState :=
  if s.rating = st.lastRating then
    { st with combinedNotes := addNotes st.combinedNotes s.notes }
  else
    { lastRating := s.rating
      startTime := s.timestamp
      combinedNotes := addNotes [] s.notes
      results :=
        if st.lastRating ≠ "" then
          st.results ++
            [⟨st.startTime, s.timestamp - 1, st.lastRating, notesString st.combinedNotes⟩]
        else st.results }

/-- The post-loop flush of `processVideo` (lines 200–214): if a segment is
still open, close it with `End = totalDuration`. -/
def flush (st : MergeState) (totalDuration : ℚ) : List RatingResult :=
  if st.lastRating ≠ "" then
    st.results ++
      [⟨st.startTime, totalDuration, st.lastRating, notesString st.combinedNotes⟩]
  else st.results

/-- The segment merger of `processVideo`: fold the loop body over the
samples, then flush, where `totalDuration` is the final
`float64(frameIndex)/fps`. -/
def mergeSamples (samples : List Sample) (totalDuration : ℚ) : List RatingResult :=
  flush (samples.foldl mergeStep initState) totalDuration

/-- Outcome of one `analyzeFrameWithOpenAI` call on a sampled frame. -/
inductive ClassifyOutcome where
  | ok (rating : String) (notes : String)
  | fail (err : String)
deriving DecidableEq, Repr

/-- The full sampled-frame loop of `processVideo`, including the early
return on a classifier error (lines 153–159): the error frame yields a
single synthetic result whose `Rating` is the error text and whose `End`
and `Notes` keep their zero values. -/
def analyzeLoop (st : MergeState) (frames : List (ℚ × ClassifyOutcome))
    (totalDuration : ℚ) : List RatingResult :=
  match frames with
  | [] => flush st totalDuration
  | (t, .fail e) :: _ => [⟨t, 0, "Error: " ++ e, ""⟩]
  | (t, .ok r n) :: rest => analyzeLoop (mergeStep st ⟨t, r, n⟩) rest totalDuration

/-- `processVideo` as a function of the classifier outcomes of the sampled
frames (the video decode itself is an external collaborator). -/
def processVideoModel (frames : List (ℚ × ClassifyOutcome))
    (totalDuration : ℚ) : List RatingResult :=
  analyzeLoop initState frames totalDuration

/-- Segment membership as tested by `blurInappropriateContent` (line 496):
exact bounds, no tolerance. -/
def inSegBlur (s : RatingResult) (t : ℚ) : Bool :=
  decide (t ≥ s.start) && decide (t ≤ s.endTime)

/-- The per-frame `shouldBlur` computation of `blurInappropriateContent`:
true when some segment contains the timestamp (exact bounds) and its
rating value exceeds the age. -/
def shouldBlur (ratings : List RatingResult) (age : ℤ) (t : ℚ) : Bool :=
  ratings.any (fun r => inSegBlur r t && decide (getRatingValue r.rating > age))

/-- Segment membership as tested by `trimInappropriateContent`
(lines 546–549): bounds widened by `epsilon = 0.001`. -/
def inSegTrim (s : RatingResult) (t : ℚ) : Bool :=
  decide (t ≥ s.start - eps) && decide (t ≤ s.endTime + eps)

/-- The `sort.Slice` by `Start` at the top of `trimInappropriateContent`. -/
def sortByStart (ratings : List RatingResult) : List RatingResult :=
  List.insertionSort (fun a b => a.start ≤ b.start) ratings

/-- The per-frame `shouldInclude` computation of `trimInappropriateContent`:
scan the start-sorted segments, stop at the first one that ε-contains the
timestamp, include the frame iff that segment's rating value is within the
age; no matching segment means the frame is dropped. -/
def shouldInclude (ratings : List RatingResult) (age : ℤ) (t : ℚ) : Bool :=
  match (sortByStart ratings).find? (fun r => inSegTrim r t) with
  | some r => decide (getRatingValue r.rating ≤ age)
  | none => false

/-- The two edit modes accepted by `convertVideo` (`video_type`). -/
inductive EditMode where
  | blur | trim
deriving DecidableEq, Repr

/-- The spec's EditPolicy: target age plus edit mode. -/
structure EditPolicy where
  targetAge : ℤ
  mode : EditMode
deriving DecidableEq, Repr

/-- Per-frame decision: written unmodified, written blurred, or dropped. -/
inductive Decision where
  | Keep | Transform | Drop
deriving DecidableEq, Repr

/-- The frame decision engine: in blur mode a frame is blurred iff
`shouldBlur`; in trim mode it is kept iff `shouldInclude` and dropped
otherwise. -/
def decideFrame (t : ℚ) (ratings : List RatingResult) (p : EditPolicy) : Decision :=
  match p.mode with
  | .blur => if shouldBlur ratings p.targetAge t then .Transform else .Keep
  | .trim => if shouldInclude ratings p.targetAge t then .Keep else .Drop

/-- The three states of the `ratings` form field in `convertVideo`: absent
(empty string, leaving the Go slice nil), unparseable JSON, or a parsed
segment list. -/
inductive RatingsField where
  | empty
  | malformed (msg : String)
  | parsed (rs : List RatingResult)
deriving DecidableEq

/-- Outcome of the `convertVideo` handler before video I/O: an immediate
rejection with an error message, or invocation of `processVideoByAge`
(per-frame processing) with the parsed age, ratings and mode. -/
inductive ConvertOutcome where
  | rejected (msg : String)
  | processed (age : ℤ) (rs : List RatingResult) (mode : String)
deriving DecidableEq

/-- The ratings-parsing step of `convertVideo` (lines 341–352). -/
def ratingsOf : RatingsField → Except String (List RatingResult)
  | .empty => .ok []
  | .malformed m => .error ("Invalid ratings format: " ++ m)
  | .parsed rs => .ok rs

/-- Go `strconv.Atoi` restricted to what `convertVideo` feeds it. -/
def atoi (s : String) : ℤ := (s.toInt?).getD 0

/-- The validation sequence of `convertVideo` (lines 326–392): file
presence, ratings parse, non-empty age and video type, age in {6,12,16},
video type in {blur,trim}; only then is `processVideoByAge` reached. -/
def convertVideoModel (hasFile : Bool) (age videoType : String)
    (rf : RatingsField) : ConvertOutcome :=
  if hasFile = false then .rejected "No video file provided"
  else
    match ratingsOf rf with
    | .error m => .rejected m
    | .ok rs =>
      if age = "" then .rejected "Age is required"
      else if videoType = "" then .rejected "Video type is required"
      else if age ≠ "6" ∧ age ≠ "12" ∧ age ≠ "16" then
        .rejected "Age must be one of: 6, 12, 16"
      else if videoType ≠ "blur" ∧ videoType ≠ "trim" then
        .rejected "Video type must be one of: blur, trim"
      else .processed (atoi age) rs videoType

/-- Scenario A of the spec: three samples at seconds 0, 1, 2. -/
def scenarioA : List Sample :=
  [⟨0, "6+", "kids"⟩, ⟨1, "6+", "forest"⟩, ⟨2, "12+", "fight"⟩]

/-- `chain a l b`: the segments of `l` tile the time axis from `a`
upwards: the first starts at `a`, each satisfies `start ≤ end`, each next
segment starts exactly one time unit after the previous one ends, and the
unit step past the last segment's end is `b`. -/
def chain : ℚ → List RatingResult → ℚ → Prop
  | a, [], b => b = a
  | a, seg :: rest, b =>
    seg.start = a ∧ seg.start ≤ seg.endTime ∧ chain (seg.endTime + 1) rest b

/-- The sampling discipline of `processVideo`: sample timestamps are
`t, t + 1, t + 2, …` (one frame per second). -/
def consecutiveFrom (t : ℚ) : List Sample → Prop
  | [] => True
  | s :: rest => s.timestamp = t ∧ consecutiveFrom (t + 1) rest

/-- Loop invariant of the `processVideo` merge loop after `k ≥ 1` samples
starting at timestamp `t0`: a segment is open, the closed segments tile
`[t0, startTime)` in the `chain` sense, the open segment started at one of
the sample timestamps, and every sampled timestamp so far is either inside
a closed segment or at/after the open segment's start. -/
def mergeInv (t0 : ℚ) (k : ℕ) (st : MergeState) : Prop :=
  st.lastRating ≠ "" ∧
  chain t0 st.results st.startTime ∧
  (∃ j : ℕ, j < k ∧ st.startTime = t0 + (j : ℚ)) ∧
  ∀ i : ℕ, i < k →
    (∃ seg ∈ st.results, seg.start ≤ t0 + (i : ℚ) ∧ t0 + (i : ℚ) ≤ seg.endTime) ∨
    st.startTime ≤ t0 + (i : ℚ)

/-! ### The string order of `sort.Strings` is a total order -/

theorem lexLe_total : ∀ x y : List Char, lexLe x y = true ∨ lexLe y x = true := by
  intro x
  induction x with
  | nil => intro y; left; rfl
  | cons a as ih =>
    intro y
    cases y with
    | nil => right; rfl
    | cons b bs =>
      by_cases hab : a = b
      · subst hab
        simp only [lexLe, if_pos rfl]
        exact ih bs
      · rcases lt_or_gt_of_ne hab with h | h
        · left; simp [lexLe, hab, h]
        · right
          have hba : b ≠ a := fun hh => hab hh.symm
          simp [lexLe, hba, h]

theorem lexLe_trans : ∀ x y z : List Char,
    lexLe x y = true → lexLe y z = true → lexLe x z = true := by
  intro x
  induction x with
  | nil => intro y z _ _; rfl
  | cons a as ih =>
    intro y z hxy hyz
    cases y with
    | nil => simp [lexLe] at hxy
    | cons b bs =>
      cases z with
      | nil => simp [lexLe] at hyz
      | cons c cs =>
        by_cases hab : a = b <;> by_cases hbc : b = c
        · subst hab; subst hbc
          simp only [lexLe, if_pos rfl] at hxy hyz ⊢
          exact ih bs cs hxy hyz
        · subst hab
          simp only [lexLe, if_pos rfl] at hxy
          simp only [lexLe, if_neg hbc, decide_eq_true_eq] at hyz
          simp [lexLe, hbc, hyz]
        · subst hbc
          simp only [lexLe, if_neg hab, decide_eq_true_eq] at hxy
          simp [lexLe, hab, hxy]
        · simp only [lexLe, if_neg hab, decide_eq_true_eq] at hxy
          simp only [lexLe, if_neg hbc, decide_eq_true_eq] at hyz
          have hac : a < c := lt_trans hxy hyz
          have hac' : a ≠ c := ne_of_lt hac
          simp [lexLe, hac', hac]

theorem lexLe_antisymm : ∀ x y : List Char,
    lexLe x y = true → lexLe y x = true → x = y := by
  intro x
  induction x with
  | nil =>
    intro y _ hyx
    cases y with
    | nil => rfl
    | cons b bs => simp [lexLe] at hyx
  | cons a as ih =>
    intro y hxy hyx
    cases y with
    | nil => simp [lexLe] at hxy
    | cons b bs =>
      by_cases hab : a = b
      · subst hab
        simp only [lexLe, if_pos rfl] at hxy hyx
        rw [ih bs hxy hyx]
      · have hba : b ≠ a := fun hh => hab hh.symm
        simp only [lexLe, if_neg hab, decide_eq_true_eq] at hxy
        simp only [lexLe, if_neg hba, decide_eq_true_eq] at hyx
        exact absurd hxy (lt_asymm hyx)

instance : IsTotal String noteLe := ⟨fun a b => lexLe_total a.data b.data⟩

instance : IsTrans String noteLe :=
  ⟨fun a b c hab hbc => lexLe_trans a.data b.data c.data hab hbc⟩

instance : IsAntisymm String noteLe := by
  refine ⟨fun a b hab hba => ?_⟩
  have h := lexLe_antisymm a.data b.data hab hba
  cases a; cases b
  exact congrArg String.mk h

/-- Output determinism of `sort.Strings` + `strings.Join`: the printed
notes depend only on the note set, not on the order it was built in. -/
theorem notesString_ext {cn1 cn2 : List String} (h1 : cn1.Nodup) (h2 : cn2.Nodup)
    (hm : ∀ x, x ∈ cn1 ↔ x ∈ cn2) : notesString cn1 = notesString cn2 := by
  unfold notesString
  congr 1
  refine List.eq_of_perm_of_sorted ?_ (List.sorted_insertionSort noteLe cn1)
    (List.sorted_insertionSort noteLe cn2)
  exact (List.perm_insertionSort noteLe cn1).trans
    (((List.perm_ext_iff_of_nodup h1 h2).2 hm).trans
      (List.perm_insertionSort noteLe cn2).symm)

/-! ### Note-set helpers -/

theorem mem_insertNote {cn : List String} {n x : String} :
    x ∈ insertNote cn n ↔ x ∈ cn ∨ x = n := by
  unfold insertNote
  split
  · rename_i hmem
    constructor
    · exact Or.inl
    · rintro (h | rfl)
      · exact h
      · exact hmem
  · simp [or_comm]

theorem nodup_insertNote {cn : List String} {n : String} (h : cn.Nodup) :
    (insertNote cn n).Nodup := by
  unfold insertNote
  split
  · exact h
  · rename_i hmem
    exact List.Nodup.cons hmem h

theorem mem_foldl_insertNote {x : String} :
    ∀ (l : List String) (cn : List String),
      x ∈ l.foldl insertNote cn ↔ x ∈ cn ∨ x ∈ l := by
  intro l
  induction l with
  | nil => intro cn; simp
  | cons n ns ih =>
    intro cn
    rw [List.foldl_cons, ih, mem_insertNote]
    simp [or_assoc, or_comm, or_left_comm]

theorem nodup_foldl_insertNote :
    ∀ (l : List String) (cn : List String), cn.Nodup → (l.foldl insertNote cn).Nodup := by
  intro l
  induction l with
  | nil => intro cn h; exact h
  | cons n ns ih => intro cn h; exact ih _ (nodup_insertNote h)

theorem mem_addNotes {cn : List String} {notes x : String} :
    x ∈ addNotes cn notes ↔ x ∈ cn ∨ x ∈ parseNotes notes :=
  mem_foldl_insertNote _ _

theorem nodup_addNotes {cn : List String} {notes : String} (h : cn.Nodup) :
    (addNotes cn notes).Nodup :=
  nodup_foldl_insertNote _ _ h

/-! ### Chain lemmas -/

theorem chain_lb : ∀ (l : List RatingResult) (a b : ℚ), chain a l b →
    ∀ seg ∈ l, a ≤ seg.start := by
  intro l
  induction l with
  | nil => intro a b _ seg hseg; simp at hseg
  | cons x xs ih =>
    intro a b h seg hseg
    obtain ⟨hstart, hle, hrest⟩ := h
    rcases List.mem_cons.1 hseg with rfl | hseg
    · exact le_of_eq hstart.symm
    · have := ih _ _ hrest seg hseg
      calc a = x.start := hstart.symm
        _ ≤ x.endTime := hle
        _ ≤ x.endTime + 1 := by linarith
        _ ≤ seg.start := this

theorem chain_start_le_end : ∀ (l : List RatingResult) (a b : ℚ), chain a l b →
    ∀ seg ∈ l, seg.start ≤ seg.endTime := by
  intro l
  induction l with
  | nil => intro a b _ seg hseg; simp at hseg
  | cons x xs ih =>
    intro a b h seg hseg
    obtain ⟨_, hle, hrest⟩ := h
    rcases List.mem_cons.1 hseg with rfl | hseg
    · exact hle
    · exact ih _ _ hrest seg hseg

theorem chain_pairwise : ∀ (l : List RatingResult) (a b : ℚ), chain a l b →
    l.Pairwise (fun x y => x.endTime < y.start) := by
  intro l
  induction l with
  | nil => intro a b _; exact List.Pairwise.nil
  | cons x xs ih =>
    intro a b h
    obtain ⟨hstart, hle, hrest⟩ := h
    refine List.Pairwise.cons ?_ (ih _ _ hrest)
    intro y hy
    have := chain_lb _ _ _ hrest y hy
    linarith

theorem chain_append_singleton : ∀ (l : List RatingResult) (a b c : ℚ)
    (r n : String), chain a l b → b ≤ c →
    chain a (l ++ [⟨b, c, r, n⟩]) (c + 1) := by
  intro l
  induction l with
  | nil =>
    intro a b c r n h hbc
    subst h
    exact ⟨rfl, hbc, rfl⟩
  | cons x xs ih =>
    intro a b c r n h hbc
    obtain ⟨hstart, hle, hrest⟩ := h
    exact ⟨hstart, hle, ih _ _ _ _ _ hrest hbc⟩

/-! ### Merge-loop invariant -/

theorem mergeInv_step {t0 : ℚ} {k : ℕ} {st : MergeState} {s : Sample}
    (hInv : mergeInv t0 k st) (hr : s.rating ≠ "")
    (ht : s.timestamp = t0 + (k : ℚ)) :
    mergeInv t0 (k + 1) (mergeStep st s) := by
  obtain ⟨h1, h2, ⟨j, hj, hjst⟩, h4⟩ := hInv
  have hjk : (j : ℚ) ≤ (k : ℚ) := by exact_mod_cast Nat.le_of_lt hj
  by_cases hc : s.rating = st.lastRating
  · rw [mergeStep, if_pos hc]
    refine ⟨h1, h2, ⟨j, Nat.lt_succ_of_lt hj, hjst⟩, ?_⟩
    intro i hi
    rcases Nat.lt_succ_iff_lt_or_eq.1 hi with hik | rfl
    · exact h4 i hik
    · right
      rw [hjst]
      have : (j : ℚ) ≤ (i : ℚ) := by exact_mod_cast Nat.le_of_lt hj
      linarith
  · rw [mergeStep, if_neg hc]
    have hemit : (if st.lastRating ≠ "" then
        st.results ++
          [⟨st.startTime, s.timestamp - 1, st.lastRating, notesString st.combinedNotes⟩]
      else st.results) =
        st.results ++
          [⟨st.startTime, s.timestamp - 1, st.lastRating, notesString st.combinedNotes⟩] :=
      if_pos h1
    refine ⟨hr, ?_, ⟨k, Nat.lt_succ_self k, ht⟩, ?_⟩
    · show chain t0 _ s.timestamp
      rw [hemit]
      have hchain := chain_append_singleton st.results t0 st.startTime
        (s.timestamp - 1) st.lastRating (notesString st.combinedNotes) h2
        (by rw [hjst, ht]; have : (j : ℚ) + 1 ≤ (k : ℚ) := by
              exact_mod_cast Nat.succ_le_of_lt hj
            linarith)
      have : s.timestamp - 1 + 1 = s.timestamp := by ring
      rwa [this] at hchain
    · intro i hi
      show (∃ seg ∈ (if st.lastRating ≠ "" then
          st.results ++
            [⟨st.startTime, s.timestamp - 1, st.lastRating, notesString st.combinedNotes⟩]
        else st.results), seg.start ≤ t0 + (i : ℚ) ∧ t0 + (i : ℚ) ≤ seg.endTime) ∨
        s.timestamp ≤ t0 + (i : ℚ)
      rw [hemit]
      rcases Nat.lt_succ_iff_lt_or_eq.1 hi with hik | rfl
      · rcases h4 i hik with ⟨seg, hseg, hcov⟩ | hopen
        · exact Or.inl ⟨seg, List.mem_append_left _ hseg, hcov⟩
        · left
          refine ⟨_, List.mem_append_right _ (List.mem_singleton_self _), hopen, ?_⟩
          show t0 + (i : ℚ) ≤ s.timestamp - 1
          rw [ht]
          have : (i : ℚ) + 1 ≤ (k : ℚ) := by exact_mod_cast Nat.succ_le_of_lt hik
          linarith
      · right; rw [ht]

theorem mergeInv_foldl {t0 : ℚ} : ∀ (rest : List Sample) (k : ℕ) (st : MergeState),
    mergeInv t0 k st → consecutiveFrom (t0 + (k : ℚ)) rest →
    (∀ s ∈ rest, s.rating ≠ "") →
    mergeInv t0 (k + rest.length) (rest.foldl mergeStep st) := by
  intro rest
  induction rest with
  | nil => intro k st hInv _ _; simpa using hInv
  | cons s ss ih =>
    intro k st hInv hcons hr
    obtain ⟨hts, hcons'⟩ := hcons
    have hstep := mergeInv_step hInv (hr s (List.mem_cons_self s ss)) hts
    have hcons'' : consecutiveFrom (t0 + ((k + 1 : ℕ) : ℚ)) ss := by
      have : t0 + ((k + 1 : ℕ) : ℚ) = t0 + (k : ℚ) + 1 := by push_cast; ring
      rwa [this]
    have := ih (k + 1) (mergeStep st s) hstep hcons''
      (fun x hx => hr x (List.mem_cons_of_mem s hx))
    have hlen : k + 1 + ss.length = k + (s :: ss).length := by
      simp [List.length_cons]; omega
    rw [List.foldl_cons]
    rwa [hlen] at this

/-- Concrete evaluation of the merger on Scenario A of the spec. -/
theorem mergeSamples_scenarioA : mergeSamples scenarioA 3 =
    [⟨0, 1, "6+", "forest, kids"⟩, ⟨2, 3, "12+", "fight"⟩] := by
  rw [show mergeSamples scenarioA 3 =
    [⟨0, (2:ℚ) - 1, "6+", "forest, kids"⟩, ⟨2, 3, "12+", "fight"⟩] from rfl]
  norm_num

/-- C1 (amended): for samples at consecutive one-second timestamps with
non-empty ratings, the merger's segments tile `[firstTimestamp,
totalDuration]` in the `chain` sense: ordered by `start`, pairwise
non-overlapping (each segment ends strictly before the next starts, the
next starting exactly one time unit later), first segment starting at
`firstTimestamp`, last ending at `totalDuration`, and every sampled
timestamp covered.  The empty sample sequence yields the empty list.
(The literal claim that the closed intervals cover all of
`[firstTimestamp, totalDuration]` is refuted by
`claim_C1_counterexample`: the open unit interval before each rating
change is uncovered.) -/
theorem claim_C1_segment_tiling (samples : List Sample) (t0 D : ℚ)
    (hcons : consecutiveFrom t0 samples)
    (hr : ∀ s ∈ samples, s.rating ≠ "")
    (hD : ∀ i : ℕ, i < samples.length → t0 + (i : ℚ) ≤ D) :
    mergeSamples ([] : List Sample) D = [] ∧
    (mergeSamples samples D).Pairwise (fun x y => x.endTime < y.start) ∧
    (∀ seg ∈ mergeSamples samples D, seg.start ≤ seg.endTime) ∧
    (samples ≠ [] → chain t0 (mergeSamples samples D) (D + 1)) ∧
    (∀ i : ℕ, i < samples.length →
      ∃ seg ∈ mergeSamples samples D,
        seg.start ≤ t0 + (i : ℚ) ∧ t0 + (i : ℚ) ≤ seg.endTime) := by
  cases samples with
  | nil =>
    refine ⟨rfl, ?_, ?_, ?_, ?_⟩
    · rw [show mergeSamples ([] : List Sample) D = [] from rfl]
      exact List.Pairwise.nil
    · rw [show mergeSamples ([] : List Sample) D = [] from rfl]
      intro seg hseg; simp at hseg
    · intro h; exact absurd rfl h
    · intro i hi; simp at hi
  | cons s0 rest =>
    have h0 : s0.timestamp = t0 := hcons.1
    have hr0 : s0.rating ≠ "" := hr s0 (List.mem_cons_self _ _)
    have hstate1 : mergeStep initState s0 =
        ⟨s0.rating, s0.timestamp, addNotes [] s0.notes, []⟩ := by
      rw [mergeStep, if_neg (show ¬ (s0.rating = initState.lastRating) from hr0)]
      simp [initState]
    have hbase : mergeInv t0 1 (mergeStep initState s0) := by
      rw [hstate1]
      refine ⟨hr0, ?_, ⟨0, Nat.zero_lt_one, ?_⟩, ?_⟩
      · exact h0
      · show s0.timestamp = t0 + ((0 : ℕ) : ℚ)
        rw [h0]; norm_num
      · intro i hi
        have : i = 0 := Nat.lt_one_iff.1 hi
        subst this
        right
        show s0.timestamp ≤ t0 + ((0 : ℕ) : ℚ)
        rw [h0]; norm_num
    have hconsRest : consecutiveFrom (t0 + ((1 : ℕ) : ℚ)) rest := by
      have : t0 + ((1 : ℕ) : ℚ) = t0 + 1 := by norm_num
      rw [this]
      exact hcons.2
    have hfold := mergeInv_foldl rest 1 (mergeStep initState s0) hbase hconsRest
      (fun x hx => hr x (List.mem_cons_of_mem s0 hx))
    obtain ⟨g1, g2, ⟨j, hj, hjst⟩, g4⟩ := hfold
    have hout : mergeSamples (s0 :: rest) D =
        (rest.foldl mergeStep (mergeStep initState s0)).results ++
          [⟨(rest.foldl mergeStep (mergeStep initState s0)).startTime, D,
            (rest.foldl mergeStep (mergeStep initState s0)).lastRating,
            notesString (rest.foldl mergeStep (mergeStep initState s0)).combinedNotes⟩] := by
      rw [mergeSamples, List.foldl_cons, flush, if_pos g1]
    have hstD : (rest.foldl mergeStep (mergeStep initState s0)).startTime ≤ D := by
      rw [hjst]
      exact hD j (by simp only [List.length_cons]; omega)
    have hchain : chain t0 (mergeSamples (s0 :: rest) D) (D + 1) := by
      rw [hout]
      exact chain_append_singleton _ _ _ _ _ _ g2 hstD
    refine ⟨rfl, chain_pairwise _ _ _ hchain, chain_start_le_end _ _ _ hchain,
      fun _ => hchain, ?_⟩
    intro i hi
    have hi' : i < 1 + rest.length := by
      simpa [List.length_cons, Nat.add_comm] using hi
    rcases g4 i hi' with ⟨seg, hseg, hc⟩ | hop
    · exact ⟨seg, by rw [hout]; exact List.mem_append_left _ hseg, hc⟩
    · refine ⟨_, by rw [hout]; exact List.mem_append_right _ (List.mem_singleton_self _),
        hop, ?_⟩
      exact hD i hi

/-- C1 counterexample: in Scenario A the merged segments are `[0,1]` and
`[2,3]`, so the point `3/2` of `[firstTimestamp, totalDuration] = [0, 3]`
lies in no segment — the union of the closed intervals does not cover
`[0, 3]`. -/
theorem claim_C1_counterexample :
    (0 : ℚ) ≤ 3/2 ∧ (3 : ℚ)/2 ≤ 3 ∧
    ∀ seg ∈ mergeSamples scenarioA 3, ¬ (seg.start ≤ 3/2 ∧ (3 : ℚ)/2 ≤ seg.endTime) := by
  refine ⟨by norm_num, by norm_num, ?_⟩
  rw [mergeSamples_scenarioA]
  intro seg hseg
  rcases List.mem_cons.1 hseg with rfl | hseg
  · rintro ⟨-, h⟩; norm_num at h
  · rcases List.mem_cons.1 hseg with rfl | hseg
    · rintro ⟨h, -⟩; norm_num at h
    · simp at hseg

/-- Witness for `claim_C1_segment_tiling` at Scenario A. -/
theorem claim_C1_witness :
    ∃ seg ∈ mergeSamples scenarioA 3,
      seg.start ≤ 0 + ((1 : ℕ) : ℚ) ∧ 0 + ((1 : ℕ) : ℚ) ≤ seg.endTime :=
  (claim_C1_segment_tiling scenarioA 0 3
    (by refine ⟨by norm_num, by norm_num, by norm_num, trivial⟩)
    (by intro s hs; fin_cases hs <;> decide)
    (by intro i hi
        simp only [scenarioA, List.length_cons, List.length_nil] at hi
        interval_cases i <;> norm_num)).2.2.2.2 1 (by norm_num [scenarioA])

/-- C8: `getRatingValue` maps the four labels to 6, 12, 16, 18, every
other string (the empty string included) to 0, and is strictly monotone
along the fixed order none(0) < 6+ < 12+ < 16+ < 18+. -/
theorem claim_C8_rating_scale :
    (getRatingValue "" = 0 ∧ getRatingValue "6+" = 6 ∧ getRatingValue "12+" = 12 ∧
      getRatingValue "16+" = 16 ∧ getRatingValue "18+" = 18) ∧
    (∀ s : String, s ≠ "6+" → s ≠ "12+" → s ≠ "16+" → s ≠ "18+" →
      getRatingValue s = 0) ∧
    (∀ i j : Fin ratingLabels.length, i < j →
      getRatingValue (ratingLabels.get i) < getRatingValue (ratingLabels.get j)) := by
  refine ⟨by decide, ?_, by decide⟩
  intro s h1 h2 h3 h4
  simp [getRatingValue, h1, h2, h3, h4]

/-- Witness for `claim_C8_rating_scale`. -/
theorem claim_C8_witness :
    getRatingValue "unknown" = 0 ∧
    getRatingValue (ratingLabels.get ⟨0, by decide⟩) <
      getRatingValue (ratingLabels.get ⟨4, by decide⟩) :=
  ⟨claim_C8_rating_scale.2.1 "unknown" (by decide) (by decide) (by decide) (by decide),
   claim_C8_rating_scale.2.2 ⟨0, by decide⟩ ⟨4, by decide⟩ (by decide)⟩

/-- C9: a convert request whose age is outside {6,12,16} or whose mode is
outside {blur,trim} is rejected by `convertVideo` before
`processVideoByAge` is invoked — no per-frame work happens. -/
theorem claim_C9_invalid_policy_rejected (hasFile : Bool) (age videoType : String)
    (rf : RatingsField)
    (h : age ∉ (["6", "12", "16"] : List String) ∨
      videoType ∉ (["blur", "trim"] : List String)) :
    ∀ (a : ℤ) (rs : List RatingResult) (m : String),
      convertVideoModel hasFile age videoType rf ≠ ConvertOutcome.processed a rs m := by
  intro a rs m
  unfold convertVideoModel
  cases hasFile with
  | false => simp
  | true =>
    rw [if_neg (by simp)]
    cases rf with
    | malformed msg => simp [ratingsOf]
    | empty =>
      simp only [ratingsOf]
      split_ifs with h1 h2 h3 h4
      case _ => simp
      case _ => simp
      case _ => simp
      case _ => simp
      rcases h with h | h
      · exact absurd (by simpa using h) (by simpa using h3)
      · exact absurd (by simpa using h) (by simpa using h4)
    | parsed rs0 =>
      simp only [ratingsOf]
      split_ifs with h1 h2 h3 h4
      case _ => simp
      case _ => simp
      case _ => simp
      case _ => simp
      rcases h with h | h
      · exact absurd (by simpa using h) (by simpa using h3)
      · exact absurd (by simpa using h) (by simpa using h4)

/-- Witness for `claim_C9_invalid_policy_rejected`. -/
theorem claim_C9_witness :
    convertVideoModel true "7" "blur" RatingsField.empty ≠
      ConvertOutcome.processed 7 [] "blur" :=
  claim_C9_invalid_policy_rejected true "7" "blur" RatingsField.empty
    (Or.inl (by decide)) 7 [] "blur"

/-- Running the `processVideo` frame loop from any state: as soon as one
classifier call fails, the loop returns the single synthetic error
segment, ignoring everything accumulated and everything after. -/
theorem analyzeLoop_fail (t : ℚ) (e : String) (post : List (ℚ × ClassifyOutcome))
    (D : ℚ) : ∀ (pre : List (ℚ × ClassifyOutcome)) (st : MergeState),
    (∀ x ∈ pre, ∀ err, x.2 ≠ ClassifyOutcome.fail err) →
    analyzeLoop st (pre ++ (t, ClassifyOutcome.fail e) :: post) D =
      [⟨t, 0, "Error: " ++ e, ""⟩] := by
  intro pre
  induction pre with
  | nil => intro st _; rfl
  | cons x xs ih =>
    intro st hok
    obtain ⟨tx, ox⟩ := x
    cases ox with
    | ok r n =>
      rw [List.cons_append]
      show analyzeLoop (mergeStep st ⟨tx, r, n⟩)
        (xs ++ (t, ClassifyOutcome.fail e) :: post) D = _
      exact ih _ (fun y hy => hok y (List.mem_cons_of_mem _ hy))
    | fail err =>
      exact absurd rfl (hok (tx, ClassifyOutcome.fail err) (List.mem_cons_self _ _) err)

/-- C7: if the classifier fails at the sampled frame at timestamp `t`
with error `e`, `processVideo` returns exactly one synthetic segment
`{Start: t, Rating: "Error: " ++ e}` (zero-valued `End`/`Notes`), and the
result does not depend on the frames after the failure (they are never
classified or merged). -/
theorem claim_C7_classifier_failure (pre post : List (ℚ × ClassifyOutcome))
    (t : ℚ) (e : String) (D : ℚ)
    (hok : ∀ x ∈ pre, ∀ err, x.2 ≠ ClassifyOutcome.fail err) :
    processVideoModel (pre ++ (t, ClassifyOutcome.fail e) :: post) D =
      [⟨t, 0, "Error: " ++ e, ""⟩] :=
  analyzeLoop_fail t e post D pre initState hok

/-- Witness for `claim_C7_classifier_failure`. -/
theorem claim_C7_witness :
    processVideoModel ([(0, ClassifyOutcome.ok "6+" "kids")] ++
      (1, ClassifyOutcome.fail "no choices in response") ::
        [(2, ClassifyOutcome.ok "6+" "x")]) 3 =
      [⟨1, 0, "Error: no choices in response", ""⟩] :=
  claim_C7_classifier_failure _ _ _ _ _
    (by intro x hx err
        simp only [List.mem_singleton] at hx
        subst hx
        simp)

/-- C5: in blur mode the decision is Transform exactly when the frame
time lies (exact bounds, as in the code) in some segment whose rating
value exceeds the target age, and Keep otherwise — in particular a frame
covered by no segment is kept. -/
theorem claim_C5_blur_decision (t : ℚ) (segs : List RatingResult) (age : ℤ) :
    (decideFrame t segs ⟨age, EditMode.blur⟩ = Decision.Transform ↔
      ∃ s ∈ segs, (s.start ≤ t ∧ t ≤ s.endTime) ∧ age < getRatingValue s.rating) ∧
    (decideFrame t segs ⟨age, EditMode.blur⟩ = Decision.Keep ↔
      ¬ ∃ s ∈ segs, (s.start ≤ t ∧ t ≤ s.endTime) ∧ age < getRatingValue s.rating) := by
  have hb : shouldBlur segs age t = true ↔
      ∃ s ∈ segs, (s.start ≤ t ∧ t ≤ s.endTime) ∧ age < getRatingValue s.rating := by
    simp [shouldBlur, inSegBlur, List.any_eq_true, Bool.and_eq_true,
      decide_eq_true_eq, ge_iff_le, and_assoc]
  have hd : decideFrame t segs ⟨age, EditMode.blur⟩ =
      (if shouldBlur segs age t then Decision.Transform else Decision.Keep) := rfl
  by_cases hsb : shouldBlur segs age t = true
  · rw [hd, if_pos hsb]
    exact ⟨iff_of_true rfl (hb.1 hsb),
      iff_of_false (by simp) (fun hn => hn (hb.1 hsb))⟩
  · rw [hd, if_neg hsb]
    exact ⟨iff_of_false (by simp) (fun hex => hsb (hb.2 hex)),
      iff_of_true rfl (fun hex => hsb (hb.2 hex))⟩

/-- C4: when a sample's rating differs from the open segment's rating at
timestamp `t`, the merger closes the open segment with `End = t − 1` and
opens a new one at `t`; concretely, Scenario A produces exactly
`{0,1,"6+","forest, kids"}` and `{2,3,"12+","fight"}`. -/
theorem claim_C4_rating_change_close :
    (∀ (st : MergeState) (s : Sample), st.lastRating ≠ "" →
      s.rating ≠ st.lastRating →
      (mergeStep st s).results =
        st.results ++
          [⟨st.startTime, s.timestamp - 1, st.lastRating,
            notesString st.combinedNotes⟩] ∧
      (mergeStep st s).startTime = s.timestamp ∧
      (mergeStep st s).lastRating = s.rating) ∧
    mergeSamples scenarioA 3 =
      [⟨0, 1, "6+", "forest, kids"⟩, ⟨2, 3, "12+", "fight"⟩] := by
  refine ⟨?_, mergeSamples_scenarioA⟩
  intro st s h1 h2
  rw [mergeStep, if_neg h2]
  exact ⟨if_pos h1, rfl, rfl⟩

/-- Witness for `claim_C4_rating_change_close`. -/
theorem claim_C4_witness :
    (mergeStep ⟨"6+", 0, ["kids"], []⟩ ⟨2, "12+", "fight"⟩).results =
      [] ++ [⟨0, (2 : ℚ) - 1, "6+", notesString ["kids"]⟩] ∧
    (mergeStep ⟨"6+", 0, ["kids"], []⟩ ⟨2, "12+", "fight"⟩).startTime = (2 : ℚ) ∧
    (mergeStep ⟨"6+", 0, ["kids"], []⟩ ⟨2, "12+", "fight"⟩).lastRating = "12+" :=
  claim_C4_rating_change_close.1 ⟨"6+", 0, ["kids"], []⟩ ⟨2, "12+", "fight"⟩
    (by decide) (by decide)

/-- C2 (amended): the ε-tolerant membership test `t ≥ start − ε ∧ t ≤
end + ε` with `ε = 0.001` is used by trim mode only: there a frame at
`end + 0.0005` is inside and one at `end + 0.002` is outside.  Blur mode
tests exact bounds, so `end + 0.0005` is already outside for it. -/
theorem claim_C2_membership_tolerance (s : RatingResult) (h : s.start ≤ s.endTime) :
    (∀ t : ℚ, inSegTrim s t = true ↔ s.start - eps ≤ t ∧ t ≤ s.endTime + eps) ∧
    inSegTrim s (s.endTime + 1/2000) = true ∧
    inSegTrim s (s.endTime + 2/1000) = false ∧
    (∀ t : ℚ, inSegBlur s t = true ↔ s.start ≤ t ∧ t ≤ s.endTime) ∧
    inSegBlur s (s.endTime + 1/2000) = false := by
  have heps : eps = (1 : ℚ)/1000 := rfl
  have htrim : ∀ t : ℚ, inSegTrim s t = true ↔
      s.start - eps ≤ t ∧ t ≤ s.endTime + eps := by
    intro t
    simp [inSegTrim, Bool.and_eq_true, decide_eq_true_eq, ge_iff_le]
  have hblur : ∀ t : ℚ, inSegBlur s t = true ↔ s.start ≤ t ∧ t ≤ s.endTime := by
    intro t
    simp [inSegBlur, Bool.and_eq_true, decide_eq_true_eq, ge_iff_le]
  refine ⟨htrim, ?_, ?_, hblur, ?_⟩
  · rw [htrim, heps]
    constructor <;> linarith
  · rw [Bool.eq_false_iff, Ne, htrim, heps]
    rintro ⟨-, h2⟩
    linarith
  · rw [Bool.eq_false_iff, Ne, hblur]
    rintro ⟨-, h2⟩
    linarith

/-- C2 counterexample: the claim says both modes treat `t = end + 0.0005`
as inside the segment; for the blur-mode segment `{1, 2, "16+"}` with age
6 that would force Transform, but `blurInappropriateContent` tests exact
bounds and keeps the frame. -/
theorem claim_C2_counterexample :
    inSegTrim ⟨1, 2, "16+", ""⟩ (2 + 1/2000) = true ∧
    decideFrame (2 + 1/2000) [⟨1, 2, "16+", ""⟩] ⟨6, EditMode.blur⟩ =
      Decision.Keep := by
  constructor
  · simp only [inSegTrim, Bool.and_eq_true, decide_eq_true_eq, ge_iff_le, eps]
    norm_num
  · have hsb : shouldBlur [⟨1, 2, "16+", ""⟩] 6 (2 + 1/2000) = false := by
      rw [Bool.eq_false_iff, Ne]
      simp only [shouldBlur, List.any_cons, List.any_nil, Bool.or_eq_true,
        Bool.and_eq_true, decide_eq_true_eq, inSegBlur, ge_iff_le]
      norm_num
    show (if shouldBlur [⟨1, 2, "16+", ""⟩] 6 (2 + 1/2000) then Decision.Transform
      else Decision.Keep) = Decision.Keep
    rw [hsb]
    rfl

/-- Witness for `claim_C2_membership_tolerance`. -/
theorem claim_C2_witness :
    inSegTrim ⟨1, 2, "16+", ""⟩ ((2 : ℚ) + 1/2000) = true ∧
    inSegTrim ⟨1, 2, "16+", ""⟩ ((2 : ℚ) + 2/1000) = false :=
  ⟨(claim_C2_membership_tolerance ⟨1, 2, "16+", ""⟩ (by norm_num)).2.1,
   (claim_C2_membership_tolerance ⟨1, 2, "16+", ""⟩ (by norm_num)).2.2.1⟩

/-! ### C10: no emitted segment carries the empty rating -/

/-- The `results` component of one merge step, with the branching made
explicit. -/
theorem mergeStep_results (st : MergeState) (s : Sample) :
    (mergeStep st s).results =
      if s.rating = st.lastRating then st.results
      else if st.lastRating ≠ "" then
        st.results ++
          [⟨st.startTime, s.timestamp - 1, st.lastRating, notesString st.combinedNotes⟩]
      else st.results := by
  rw [mergeStep]
  split <;> rfl

/-- Every segment ever flushed out of the merge loop has the rating of a
state whose emission was guarded by `lastRating ≠ ""`. -/
theorem flush_foldl_rating_ne : ∀ (samples : List Sample) (st : MergeState) (D : ℚ),
    (∀ seg ∈ st.results, seg.rating ≠ "") →
    ∀ seg ∈ flush (samples.foldl mergeStep st) D, seg.rating ≠ "" := by
  intro samples
  induction samples with
  | nil =>
    intro st D hres seg hseg
    unfold flush at hseg
    split at hseg
    · rename_i hlast
      rcases List.mem_append.1 hseg with hm | hm
      · exact hres seg hm
      · rw [List.mem_singleton] at hm; subst hm; exact hlast
    · exact hres seg hseg
  | cons s ss ih =>
    intro st D hres
    rw [List.foldl_cons]
    apply ih
    intro seg hseg
    rw [mergeStep_results] at hseg
    split at hseg
    · exact hres seg hseg
    · split at hseg
      · rename_i hlast
        rcases List.mem_append.1 hseg with hm | hm
        · exact hres seg hm
        · rw [List.mem_singleton] at hm; subst hm; exact hlast
      · exact hres seg hseg

/-- From a state with no open segment and no emitted results, the rest of
the run behaves exactly like a fresh run: `combinedNotes` and `startTime`
of such a state are never emitted. -/
theorem flush_foldl_of_blank (D : ℚ) : ∀ (samples : List Sample) (st : MergeState),
    st.lastRating = "" → st.results = [] →
    flush (samples.foldl mergeStep st) D = mergeSamples samples D := by
  intro samples
  induction samples with
  | nil =>
    intro st hlast hres
    rw [List.foldl_nil, flush, if_neg (fun hn => hn hlast), hres]
    rfl
  | cons s ss ih =>
    intro st hlast hres
    rw [List.foldl_cons]
    by_cases hc : s.rating = ""
    · have hstep : mergeStep st s =
          { st with combinedNotes := addNotes st.combinedNotes s.notes } := by
        rw [mergeStep, if_pos (hc.trans hlast.symm)]
      rw [hstep,
        ih { st with combinedNotes := addNotes st.combinedNotes s.notes } hlast hres]
      have hstep0 : mergeStep initState s =
          { initState with combinedNotes := addNotes initState.combinedNotes s.notes } := by
        rw [mergeStep, if_pos (show s.rating = initState.lastRating from hc)]
      rw [show mergeSamples (s :: ss) D =
        flush (ss.foldl mergeStep (mergeStep initState s)) D from rfl, hstep0]
      exact (ih _ rfl rfl).symm
    · have hst : mergeStep st s = mergeStep initState s := by
        rw [mergeStep, mergeStep,
          if_neg (show ¬ (s.rating = st.lastRating) by rw [hlast]; exact hc),
          if_neg (show ¬ (s.rating = initState.lastRating) from hc),
          if_neg (fun hn => hn hlast), if_neg (by simp [initState]), hres]
        rfl
      rw [hst]
      rfl

/-- Ratings of all-blank samples leave the loop state blank and emit
nothing. -/
theorem foldl_blank : ∀ (pre : List Sample) (st : MergeState),
    (∀ s ∈ pre, s.rating = "") → st.lastRating = "" →
    (pre.foldl mergeStep st).lastRating = "" ∧
      (pre.foldl mergeStep st).results = st.results := by
  intro pre
  induction pre with
  | nil => intro st _ hlast; exact ⟨hlast, rfl⟩
  | cons s ss ih =>
    intro st hall hlast
    rw [List.foldl_cons]
    have hc : s.rating = st.lastRating :=
      (hall s (List.mem_cons_self _ _)).trans hlast.symm
    rw [show mergeStep st s =
      { st with combinedNotes := addNotes st.combinedNotes s.notes } from by
        rw [mergeStep, if_pos hc]]
    exact ih _ (fun x hx => hall x (List.mem_cons_of_mem _ hx)) hlast

/-- C10: the merger never emits a segment whose rating is the empty
string — the absent open segment is represented by `lastRating = ""` —
and a leading run of empty-rating samples is discarded entirely: merging
`pre ++ rest` with all of `pre` blank-rated equals merging `rest`. -/
theorem claim_C10_no_empty_rating (samples pre rest : List Sample) (D : ℚ) :
    (∀ seg ∈ mergeSamples samples D, seg.rating ≠ "") ∧
    ((∀ s ∈ pre, s.rating = "") →
      mergeSamples (pre ++ rest) D = mergeSamples rest D) := by
  constructor
  · exact fun seg hseg =>
      flush_foldl_rating_ne samples initState D
        (by intro seg' hs; simp [initState] at hs) seg hseg
  · intro hpre
    rw [mergeSamples, List.foldl_append]
    obtain ⟨hl, hr2⟩ := foldl_blank pre initState hpre rfl
    exact flush_foldl_of_blank D rest _ hl (hr2.trans rfl)

/-- Witness for `claim_C10_no_empty_rating`. -/
theorem claim_C10_witness :
    mergeSamples ([(⟨0, "", "x"⟩ : Sample)] ++ [⟨1, "6+", "a"⟩]) 2 =
      mergeSamples [⟨1, "6+", "a"⟩] 2 :=
  (claim_C10_no_empty_rating [⟨1, "6+", "a"⟩] [⟨0, "", "x"⟩] [⟨1, "6+", "a"⟩] 2).2
    (by intro s hs
        simp only [List.mem_singleton] at hs
        subst hs
        rfl)

/-! ### C6: the trim-mode decision -/

/-- `shouldInclude` succeeds exactly when the first ε-containing segment
of the start-sorted list is rated within the age. -/
theorem shouldInclude_eq_true_iff (segs : List RatingResult) (age : ℤ) (t : ℚ) :
    shouldInclude segs age t = true ↔
      ∃ r, (sortByStart segs).find? (fun r => inSegTrim r t) = some r ∧
        getRatingValue r.rating ≤ age := by
  unfold shouldInclude
  split
  · rename_i r hr
    simp only [decide_eq_true_eq]
    constructor
    · exact fun h => ⟨r, hr, h⟩
    · rintro ⟨r', hr', h⟩
      rw [hr] at hr'
      cases hr'
      exact h
  · rename_i hr
    simp only [Bool.false_eq_true, false_iff]
    rintro ⟨r', hr', -⟩
    rw [hr] at hr'
    cases hr'

/-- C6 (amended): in trim mode the verdict is decided by the *first*
segment, in ascending start order, that ε-contains the frame time: Keep
iff that segment's rating value is ≤ the target age, Drop otherwise, and
Drop when no segment ε-contains the time.  When no frame time is
ε-contained in two different segments — as for merger output, whose
segments are at least one second apart — this coincides with the claim's
"Keep exactly when t falls in a segment rated ≤ targetAge". -/
theorem claim_C6_trim_decision (t : ℚ) (segs : List RatingResult) (age : ℤ)
    (huniq : ∀ s1 ∈ segs, ∀ s2 ∈ segs,
      inSegTrim s1 t = true → inSegTrim s2 t = true → s1 = s2) :
    (decideFrame t segs ⟨age, EditMode.trim⟩ = Decision.Keep ↔
      ∃ s ∈ segs, inSegTrim s t = true ∧ getRatingValue s.rating ≤ age) ∧
    (decideFrame t segs ⟨age, EditMode.trim⟩ = Decision.Drop ↔
      ¬ ∃ s ∈ segs, inSegTrim s t = true ∧ getRatingValue s.rating ≤ age) := by
  have hperm :=
    List.perm_insertionSort (fun a b : RatingResult => a.start ≤ b.start) segs
  have hmem : ∀ x : RatingResult, x ∈ sortByStart segs ↔ x ∈ segs :=
    fun x => hperm.mem_iff
  have hkey : shouldInclude segs age t = true ↔
      ∃ s ∈ segs, inSegTrim s t = true ∧ getRatingValue s.rating ≤ age := by
    rw [shouldInclude_eq_true_iff]
    constructor
    · rintro ⟨r, hr, hv⟩
      have hrin : inSegTrim r t = true := by
        have h := List.find?_some hr
        exact h
      exact ⟨r, (hmem r).1 (List.mem_of_find?_eq_some hr), hrin, hv⟩
    · rintro ⟨s, hs, hin, hv⟩
      cases hf : (sortByStart segs).find? (fun r => inSegTrim r t) with
      | none =>
        exact absurd hin (by simpa using List.find?_eq_none.1 hf s ((hmem s).2 hs))
      | some r =>
        have hrmem : r ∈ segs := (hmem r).1 (List.mem_of_find?_eq_some hf)
        have hrin : inSegTrim r t = true := by
          have h := List.find?_some hf
          exact h
        have hrs : r = s := huniq r hrmem s hs hrin hin
        subst hrs
        exact ⟨r, rfl, hv⟩
  have hd : decideFrame t segs ⟨age, EditMode.trim⟩ =
      (if shouldInclude segs age t then Decision.Keep else Decision.Drop) := rfl
  by_cases hsi : shouldInclude segs age t = true
  · rw [hd, if_pos hsi]
    exact ⟨iff_of_true rfl (hkey.1 hsi),
      iff_of_false (by simp) (fun hn => hn (hkey.1 hsi))⟩
  · rw [hd, if_neg hsi]
    exact ⟨iff_of_false (by simp) (fun hex => hsi (hkey.2 hex)),
      iff_of_true rfl (fun hex => hsi (hkey.2 hex))⟩

/-- C6 counterexample: for the segment list `[{0,1,"16+"}, {1.0005,2,"6+"}]`
with age 12, the frame at `t = 1.0005` falls in the second segment
(rated `6+ ≤ 12`, and it ε-contains `t`), yet the decision is Drop,
because the scan stops at the first ε-containing segment `{0,1,"16+"}` —
refuting "Keep exactly when t falls in a segment rated ≤ targetAge". -/
theorem claim_C6_counterexample :
    inSegTrim ⟨1 + 1/2000, 2, "6+", ""⟩ (1 + 1/2000) = true ∧
    ((1 : ℚ) + 1/2000 ≥ 1 + 1/2000 ∧ (1 : ℚ) + 1/2000 ≤ 2) ∧
    getRatingValue "6+" ≤ 12 ∧
    decideFrame (1 + 1/2000) [⟨0, 1, "16+", ""⟩, ⟨1 + 1/2000, 2, "6+", ""⟩]
      ⟨12, EditMode.trim⟩ = Decision.Drop := by
  refine ⟨?_, by norm_num, by decide, ?_⟩
  · simp only [inSegTrim, Bool.and_eq_true, decide_eq_true_eq, ge_iff_le, eps]
    norm_num
  · have hsort : sortByStart [⟨0, 1, "16+", ""⟩, ⟨1 + 1/2000, 2, "6+", ""⟩] =
        [⟨0, 1, "16+", ""⟩, ⟨1 + 1/2000, 2, "6+", ""⟩] := by
      unfold sortByStart
      simp only [List.insertionSort, List.orderedInsert]
      rw [if_pos (by norm_num : (0 : ℚ) ≤ 1 + 1/2000)]
    have hfirst : inSegTrim ⟨0, 1, "16+", ""⟩ (1 + 1/2000) = true := by
      simp only [inSegTrim, Bool.and_eq_true, decide_eq_true_eq, ge_iff_le, eps]
      norm_num
    have hfind : ([⟨0, 1, "16+", ""⟩, ⟨1 + 1/2000, 2, "6+", ""⟩] :
        List RatingResult).find? (fun r => inSegTrim r (1 + 1/2000)) =
        some ⟨0, 1, "16+", ""⟩ :=
      List.find?_cons_of_pos _ hfirst
    have hsi : shouldInclude [⟨0, 1, "16+", ""⟩, ⟨1 + 1/2000, 2, "6+", ""⟩]
        12 (1 + 1/2000) = false := by
      unfold shouldInclude
      rw [hsort, hfind]
      rfl
    show (if shouldInclude [⟨0, 1, "16+", ""⟩, ⟨1 + 1/2000, 2, "6+", ""⟩]
        12 (1 + 1/2000) then Decision.Keep else Decision.Drop) = Decision.Drop
    rw [hsi]
    rfl

/-- Witness for `claim_C6_trim_decision`: Scenario B's first half. -/
theorem claim_C6_witness :
    decideFrame (3/2) [⟨1, 2, "16+", ""⟩] ⟨12, EditMode.trim⟩ = Decision.Drop :=
  (claim_C6_trim_decision (3/2) [⟨1, 2, "16+", ""⟩] 12
    (by intro s1 h1 s2 h2 _ _
        rw [List.mem_singleton] at h1 h2
        rw [h1, h2])).2.mpr
    (by rintro ⟨s, hs, -, hv⟩
        rw [List.mem_singleton] at hs
        subst hs
        revert hv
        decide)

/-! ### C3: a same-rating run collapses to one segment with unioned notes -/

/-- Folding the merge step over same-rating samples only accumulates
notes. -/
theorem foldl_mergeStep_same (r : String) : ∀ (rest : List Sample) (st : MergeState),
    st.lastRating = r → (∀ s ∈ rest, s.rating = r) →
    rest.foldl mergeStep st =
      ⟨r, st.startTime,
        rest.foldl (fun cn s => addNotes cn s.notes) st.combinedNotes,
        st.results⟩ := by
  intro rest
  induction rest with
  | nil =>
    intro st hst _
    rw [List.foldl_nil, List.foldl_nil]
    cases st
    cases hst
    rfl
  | cons s ss ih =>
    intro st hst hall
    rw [List.foldl_cons, List.foldl_cons]
    have hc : s.rating = st.lastRating :=
      (hall s (List.mem_cons_self _ _)).trans hst.symm
    rw [show mergeStep st s =
      { st with combinedNotes := addNotes st.combinedNotes s.notes } from by
        rw [mergeStep, if_pos hc]]
    exact ih _ hst (fun x hx => hall x (List.mem_cons_of_mem _ hx))

/-- Membership in the accumulated note set over a run of samples. -/
theorem mem_foldl_addNotes {x : String} : ∀ (l : List Sample) (cn : List String),
    x ∈ l.foldl (fun cn s => addNotes cn s.notes) cn ↔
      x ∈ cn ∨ ∃ s ∈ l, x ∈ parseNotes s.notes := by
  intro l
  induction l with
  | nil => intro cn; simp
  | cons s ss ih =>
    intro cn
    rw [List.foldl_cons, ih, mem_addNotes]
    simp only [List.mem_cons]
    constructor
    · rintro ((h | h) | ⟨s', hs', h⟩)
      · exact Or.inl h
      · exact Or.inr ⟨s, Or.inl rfl, h⟩
      · exact Or.inr ⟨s', Or.inr hs', h⟩
    · rintro (h | ⟨s', (rfl | hs'), h⟩)
      · exact Or.inl (Or.inl h)
      · exact Or.inl (Or.inr h)
      · exact Or.inr ⟨s', hs', h⟩

/-- The accumulated note set over a run of samples stays duplicate-free. -/
theorem nodup_foldl_addNotes : ∀ (l : List Sample) (cn : List String),
    cn.Nodup → (l.foldl (fun cn s => addNotes cn s.notes) cn).Nodup := by
  intro l
  induction l with
  | nil => intro cn h; exact h
  | cons s ss ih => intro cn h; exact ih _ (nodup_addNotes h)

/-- C3: a nonempty all-same-rating sample sequence merges to exactly one
segment, starting at the first sample's timestamp and ending at the total
duration, whose notes string prints the duplicate-free union of the
comma-split, trimmed, lower-cased, non-empty, non-"none" note tokens of
the whole run, sorted lexicographically and joined by `", "` — and that
string depends only on the token set, not on arrival order. -/
theorem claim_C3_run_collapse (samples : List Sample) (r : String) (D : ℚ)
    (hne : samples ≠ []) (hr0 : r ≠ "") (hall : ∀ s ∈ samples, s.rating = r) :
    ∃ cn : List String,
      mergeSamples samples D = [⟨(samples.head hne).timestamp, D, r, notesString cn⟩] ∧
      cn.Nodup ∧
      (∀ x, x ∈ cn ↔ ∃ s ∈ samples, x ∈ parseNotes s.notes) ∧
      (∀ cn2 : List String, cn2.Nodup → (∀ x, x ∈ cn2 ↔ x ∈ cn) →
        notesString cn2 = notesString cn) := by
  cases samples with
  | nil => exact absurd rfl hne
  | cons s0 rest =>
    have hr0' : s0.rating = r := hall s0 (List.mem_cons_self _ _)
    have hs0ne : s0.rating ≠ "" := by rw [hr0']; exact hr0
    have hstate1 : mergeStep initState s0 =
        ⟨s0.rating, s0.timestamp, addNotes [] s0.notes, []⟩ := by
      rw [mergeStep, if_neg (show ¬ (s0.rating = initState.lastRating) from hs0ne)]
      simp [initState]
    have hnodup : (rest.foldl (fun cn s => addNotes cn s.notes)
        (addNotes [] s0.notes)).Nodup :=
      nodup_foldl_addNotes _ _ (nodup_addNotes List.nodup_nil)
    refine ⟨rest.foldl (fun cn s => addNotes cn s.notes) (addNotes [] s0.notes),
      ?_, hnodup, ?_, ?_⟩
    · rw [mergeSamples, List.foldl_cons, hstate1,
        foldl_mergeStep_same r rest _ hr0'
          (fun x hx => hall x (List.mem_cons_of_mem _ hx)),
        flush, if_pos (show r ≠ "" from hr0)]
      rfl
    · intro x
      rw [mem_foldl_addNotes, mem_addNotes]
      simp only [List.mem_cons, List.not_mem_nil, false_or]
      constructor
      · rintro (h | ⟨s', hs', h⟩)
        · exact ⟨s0, Or.inl rfl, h⟩
        · exact ⟨s', Or.inr hs', h⟩
      · rintro ⟨s', (rfl | hs'), h⟩
        · exact Or.inl h
        · exact Or.inr ⟨s', hs', h⟩
    · intro cn2 h2 hm
      exact notesString_ext h2 hnodup hm

/-- Witness for `claim_C3_run_collapse`: a two-sample run whose second
sample re-supplies a duplicate token in different order. -/
theorem claim_C3_witness :
    ∃ cn : List String,
      mergeSamples [(⟨0, "6+", "b, a"⟩ : Sample), ⟨1, "6+", "a"⟩] 2 =
        [⟨(List.head [(⟨0, "6+", "b, a"⟩ : Sample), ⟨1, "6+", "a"⟩]
            (by decide)).timestamp, 2, "6+", notesString cn⟩] ∧
      cn.Nodup ∧
      (∀ x, x ∈ cn ↔ ∃ s ∈ [(⟨0, "6+", "b, a"⟩ : Sample), ⟨1, "6+", "a"⟩],
        x ∈ parseNotes s.notes) ∧
      (∀ cn2 : List String, cn2.Nodup → (∀ x, x ∈ cn2 ↔ x ∈ cn) →
        notesString cn2 = notesString cn) :=
  claim_C3_run_collapse [(⟨0, "6+", "b, a"⟩ : Sample), ⟨1, "6+", "a"⟩] "6+" 2
    (by decide) (by decide) (by decide)

end CensorAI
